import Mathlib

/-!
Shallow embedding of the Game-Theory-Course-Project simulator
(`components.py` and `protocols.py`).

Conventions of the embedding:
* Stochastic draws are modelled by an explicit draw stream `draws : ℕ → ℚ`
  together with a position counter: `scipy`'s / `random`'s `rvs()` /
  `uniform(0,1)` consume the next value(s) of the stream.  All sampled
  quantities (energies, gains, uniform draws) are rationals; the real-valued
  success probability `min(1, energy·e^(−gain))` is modelled over `ℝ`.
* Python dictionaries keyed by `Node` objects become lists indexed by the
  node's integer id (ids are list positions after `Network.reset`).
* `while` loops are run with an explicit fuel (or a structurally decreasing
  argument); `Option` is used where the Python code can raise
  (`min`/`max` on an empty sequence, unbound local for an unknown mode).
* Python's `sorted` (stable, ascending by key) is modelled by a stable
  insertion sort `sortByKey`; `np.argmax` / `min(..., key=...)` /
  `max(..., key=...)` keep the first optimum, as their fold models do.
-/

/-- A stream of stochastic draws: the `n`-th value the underlying random
source would produce. -/
def DrawStream : Type := ℕ → ℚ

/-- `components.py` `Node`: id, current energy, pending-message flag.
Energy is stored as the rational drawn from the stream. -/
structure Node where
  id : ℕ
  energy : ℚ
  hasMessage : Bool
deriving DecidableEq, Repr

/-- `components.py` `Channel`: id plus the per-node gains of the current
slot; `gains` is indexed by node id (the Python dict keyed by node). -/
structure Channel where
  id : ℕ
  gains : List ℚ
deriving DecidableEq, Repr

/-- Gain of channel `ch` for the node with id `nid` (`channel.gains[node]`). -/
def Channel.gainFor (ch : Channel) (nid : ℕ) : ℚ :=
  ch.gains.getD nid 0

/-- `Node.probability_of_success`: `min(1, self.energy * math.exp(-channel_gain))`. -/
noncomputable def Node.probability_of_success (n : Node) (channel_gain : ℚ) : ℝ :=
  min 1 ((n.energy : ℝ) * Real.exp (-(channel_gain : ℚ)))

/-- `Node.send_data`: returns `False` without a message; otherwise draws a
uniform value and succeeds iff it is below the success probability; the
message flag becomes the negation of success.  The uniform draw is the
explicit argument `draw`.  Returns `(success, updated node)`. -/
noncomputable def Node.send_data (n : Node) (channel_gain : ℚ) (draw : ℚ) : Bool × Node :=
  if n.hasMessage = false then (false, n)
  else
    let success : Bool := decide ((draw : ℝ) < n.probability_of_success channel_gain)
    (success, { n with hasMessage := !success })

/-- Stable insertion of `a` into `l`, keeping every element whose key is
`≤ a`'s key in front (the behaviour of Python's stable ascending sort). -/
def insertByKey (key : α → ℚ) (a : α) : List α → List α
  | [] => [a]
  | b :: bs => if key b ≤ key a then b :: insertByKey key a bs else a :: b :: bs

/-- Python `sorted(l, key=key)`: stable ascending sort by key. -/
def sortByKey (key : α → ℚ) (l : List α) : List α :=
  l.foldl (fun acc a => insertByKey key a acc) []

/-- Configuration flags of `Network.__init__` (fixed for the network's
lifetime); the Python defaults are `num_nodes=10, per_user=True,
match_before=False, keep_alive=True`. -/
structure NetworkConfig where
  numNodes : ℕ
  perUser : Bool
  matchBefore : Bool
  keepAlive : Bool
deriving DecidableEq, Repr

/-- Mutable state of a `Network`: the node and channel populations plus the
position reached in the draw stream. -/
structure NetworkState where
  cfg : NetworkConfig
  nodes : List Node
  channels : List Channel
  draws : DrawStream
  pos : ℕ

/-- `Channel.generate_gains`: one independent draw per node when
`per_user`, otherwise a single draw shared by every node.  Returns the
gains list (indexed by node id) and the new stream position. -/
def generate_gains (perUser : Bool) (numNodes : ℕ) (draws : DrawStream) (pos : ℕ) :
    List ℚ × ℕ :=
  if perUser then ((List.range numNodes).map fun t => draws (pos + t), pos + numNodes)
  else (List.replicate numNodes (draws pos), pos + 1)

/-- `Network.reset`: `num_nodes` fresh nodes (energy 0, no message) and
`num_nodes` fresh channels, each drawing its initial gains. -/
def Network.reset (cfg : NetworkConfig) (draws : DrawStream) (pos : ℕ) : NetworkState :=
  let nodes := (List.range cfg.numNodes).map fun i => Node.mk i 0 false
  let chs := (List.range cfg.numNodes).foldl
    (fun (acc : List Channel × ℕ) i =>
      let g := generate_gains cfg.perUser cfg.numNodes draws acc.2
      (acc.1 ++ [Channel.mk i g.1], g.2))
    ([], pos)
  ⟨cfg, nodes, chs.1, draws, chs.2⟩

/-- `Network.harvesting_slot`: every channel regenerates all of its gains,
then every node's energy is redrawn (one batched draw of `num_nodes`
values). -/
def Network.harvesting_slot (st : NetworkState) : NetworkState :=
  let chs := st.channels.foldl
    (fun (acc : List Channel × ℕ) ch =>
      let g := generate_gains st.cfg.perUser st.cfg.numNodes st.draws acc.2
      (acc.1 ++ [{ ch with gains := g.1 }], g.2))
    ([], st.pos)
  let nodes := st.nodes.mapIdx fun k n => { n with energy := st.draws (chs.2 + k) }
  { st with channels := chs.1, nodes := nodes, pos := chs.2 + st.cfg.numNodes }

/-- `Network.create_messages`: per node one Bernoulli(`rate/num_nodes`)
draw; under keep-alive the new flag is OR-ed with the old one, otherwise it
replaces it. -/
def Network.create_messages (rate : ℚ) (st : NetworkState) : NetworkState :=
  let nodes := st.nodes.mapIdx fun k n =>
    let generated := decide (st.draws (st.pos + k) < rate / (st.cfg.numNodes : ℚ))
    { n with hasMessage := if st.cfg.keepAlive then (n.hasMessage || generated) else generated }
  { st with nodes := nodes, pos := st.pos + st.nodes.length }

/-- `Network.sending_nodes`: the nodes holding a pending message. -/
def Network.sending_nodes (st : NetworkState) : List Node :=
  st.nodes.filter (fun n => n.hasMessage)

/-- A protocol's `execute`: given the contending nodes and the channels it
returns the success count, the updated versions of the nodes it received,
and the new stream position. -/
def ProtocolFun : Type := List Node → List Channel → DrawStream → ℕ → ℕ × List Node × ℕ

/-- `Network.sending_slot`: the protocol sees every node under
`match_before`, otherwise only those with a message; the mutations the
protocol makes to the (shared) node objects are merged back by id. -/
def Network.sending_slot (proto : ProtocolFun) (st : NetworkState) : ℕ × NetworkState :=
  let sel := if st.cfg.matchBefore then st.nodes else Network.sending_nodes st
  let r := proto sel st.channels st.draws st.pos
  let nodes := st.nodes.map fun n => ((r.2.1.find? (fun m => m.id = n.id)).getD n)
  (r.1, { st with nodes := nodes, pos := r.2.2 })

/-- One slot of `Network.simulate_rate`'s loop, exactly in the source's
order: `create_messages`, then `harvesting_slot`, then `sending_slot`. -/
def network_slot (proto : ProtocolFun) (rate : ℚ) (st : NetworkState) : ℕ × NetworkState :=
  Network.sending_slot proto (Network.harvesting_slot (Network.create_messages rate st))

/-- The slot loop of `Network.simulate_rate`: runs the given number of
slots, accumulating the success total. -/
def run_slots (proto : ProtocolFun) (rate : ℚ) :
    ℕ → NetworkState → ℕ → NetworkState × ℕ
  | 0, st, total => (st, total)
  | t + 1, st, total =>
    let r := network_slot proto rate st
    run_slots proto rate t r.2 (total + r.1)

/-- `Network.simulate_rate`: reset, run `trial_length` slots, return the
rate and the mean per-slot success count (and, for sequential threading,
the final network state). -/
def Network.simulate_rate (proto : ProtocolFun) (rate : ℚ) (trial_length : ℕ)
    (cfg : NetworkConfig) (draws : DrawStream) (pos : ℕ) : (ℚ × ℚ) × NetworkState :=
  let st := Network.reset cfg draws pos
  let r := run_slots proto rate trial_length st 0
  ((rate, (r.2 : ℚ) / (trial_length : ℚ)), r.1)

/-- `Network.simulate`: one `simulate_rate` trial per input rate, in order,
on the same network (the draw stream continues across rates). -/
def Network.simulate (proto : ProtocolFun) (rates : List ℚ) (trial_length : ℕ)
    (cfg : NetworkConfig) (draws : DrawStream) (pos : ℕ) : List (ℚ × ℚ) :=
  (rates.foldl
    (fun (acc : List (ℚ × ℚ) × ℕ) rate =>
      let r := Network.simulate_rate proto rate trial_length cfg draws acc.2
      (acc.1 ++ [r.1], r.2.pos))
    ([], pos)).1

/-- The per-rate network built by `MultiThreadedNetwork.simulate`:
`Network(self.num_nodes)` — only the population size is passed, every
other flag reverts to the constructor's default. -/
def mkThreadNetworkConfig (cfg : NetworkConfig) : NetworkConfig :=
  { numNodes := cfg.numNodes, perUser := true, matchBefore := false, keepAlive := true }

/-- `MultiThreadedNetwork.simulate`: each rate runs against its own fresh
`Network(self.num_nodes)` with its own independent draw stream; results
are collected per rate. -/
def MultiThreadedNetwork.simulate (proto : ProtocolFun) (rates : List ℚ) (trial_length : ℕ)
    (cfg : NetworkConfig) (streams : ℚ → DrawStream) : List (ℚ × ℚ) :=
  rates.map fun rate =>
    (Network.simulate_rate proto rate trial_length (mkThreadNetworkConfig cfg) (streams rate) 0).1

/-- Model of `random.choice(channels)`: one draw selects an index. -/
def pickIdx (u : ℚ) (n : ℕ) : ℕ :=
  min (Int.toNat ⌊u * (n : ℚ)⌋) (n - 1)

/-- `RandomAccessProtocol.execute`: every contending node picks a channel
uniformly (guarded no-op when no channel exists) and attempts one
transmission on it. -/
noncomputable def RandomAccessProtocol.execute : ProtocolFun := fun nodes channels draws pos =>
  nodes.foldl
    (fun (acc : ℕ × List Node × ℕ) n =>
      if channels.isEmpty then (acc.1, acc.2.1 ++ [n], acc.2.2)
      else
        let ch := channels.getD (pickIdx (draws acc.2.2) channels.length) (Channel.mk 0 [])
        let r := n.send_data (ch.gainFor n.id) (draws (acc.2.2 + 1))
        (acc.1 + (if r.1 then 1 else 0), acc.2.1 ++ [r.2], acc.2.2 + 2))
    (0, [], pos)

/-- State of the deferred-acceptance loop of
`OneToOneStableMatching.stable_matching`: `receiver_partner` and
`proposer_free` (as functions of the proposer/receiver index) plus the
`free_proposers` counter. -/
structure GSState where
  partner : ℕ → Option ℕ
  free : ℕ → Bool
  freeCount : ℕ

/-- The inner `for receiver in proposer_preferences[proposer]` scan: the
free proposer `i` walks its preference list; an unmatched receiver accepts;
a matched receiver swaps iff it ranks `i` strictly before its current
partner (rank = `list.index`, assignment order mirrored by last-write-wins
on the `free` map). -/
def gsPropose (rPrefs : ℕ → List ℕ) (i : ℕ) : List ℕ → GSState → GSState
  | [], s => s
  | j :: rest, s =>
    match s.partner j with
    | none =>
      { partner := fun j' => if j' = j then some i else s.partner j'
        free := fun i' => if i' = i then false else s.free i'
        freeCount := s.freeCount - 1 }
    | some q =>
      if (rPrefs j).indexOf i < (rPrefs j).indexOf q then
        { partner := fun j' => if j' = j then some i else s.partner j'
          free := fun i' => if i' = q then true else if i' = i then false else s.free i'
          freeCount := s.freeCount }
      else gsPropose rPrefs i rest s

/-- One proposer's turn in the `for proposer in proposers` pass: matched
proposers are skipped. -/
def gsScan (pPrefs rPrefs : ℕ → List ℕ) (s : GSState) (i : ℕ) : GSState :=
  if s.free i = true then gsPropose rPrefs i (pPrefs i) s else s

/-- One full pass over all proposers. -/
def gsRound (P : ℕ) (pPrefs rPrefs : ℕ → List ℕ) (s : GSState) : GSState :=
  (List.range P).foldl (gsScan pPrefs rPrefs) s

/-- The `while free_proposers > max(0, len(proposers) - len(receivers))`
loop, run with fuel; `none` means the fuel ran out before the guard turned
false. -/
def gsRun (P R : ℕ) (pPrefs rPrefs : ℕ → List ℕ) : ℕ → GSState → Option GSState
  | fuel, s =>
    if P - R < s.freeCount then
      match fuel with
      | 0 => none
      | f + 1 => gsRun P R pPrefs rPrefs f (gsRound P pPrefs rPrefs s)
    else some s

/-- The loop's starting state: every receiver unmatched, every proposer
free. -/
def gsInit (P : ℕ) : GSState :=
  { partner := fun _ => none, free := fun _ => true, freeCount := P }

/-- `receiver_partner.items()` filtered to the matched receivers, as
(proposer index, receiver index) pairs in receiver order. -/
def gsPairs (R : ℕ) (s : GSState) : List (ℕ × ℕ) :=
  (List.range R).filterMap fun j => (s.partner j).map fun i => (i, j)

/-- A default node for out-of-range list access. -/
def dNode : Node := Node.mk 0 0 false

/-- A default channel for out-of-range list access. -/
def dChannel : Channel := Channel.mk 0 []

/-- `node_preferences`: every node ranks the channels by ascending gain
(stable sort of the channel indices). -/
def nodePrefIdx (nodes : List Node) (channels : List Channel) (i : ℕ) : List ℕ :=
  sortByKey (fun j => (channels.getD j dChannel).gainFor (nodes.getD i dNode).id)
    (List.range channels.length)

/-- `channel_preferences`: every channel ranks the nodes by descending
energy (stable sort of the node indices by the key `-energy`). -/
def channelPrefIdx (nodes : List Node) (_j : ℕ) : List ℕ :=
  sortByKey (fun i => -((nodes.getD i dNode).energy)) (List.range nodes.length)

/-- Proposer preference table of `OneToOneStableMatching` for the given
`mode` (`'node'`: nodes propose; `'channel'`: channels propose). -/
def proposerPrefsFor (mode : String) (nodes : List Node) (channels : List Channel) :
    ℕ → List ℕ :=
  if mode = "node" then nodePrefIdx nodes channels else channelPrefIdx nodes

/-- Receiver preference table of `OneToOneStableMatching` for the given
`mode`. -/
def receiverPrefsFor (mode : String) (nodes : List Node) (channels : List Channel) :
    ℕ → List ℕ :=
  if mode = "node" then channelPrefIdx nodes else nodePrefIdx nodes channels

/-- Number of proposers for the given mode. -/
def numProposers (mode : String) (nodes : List Node) (channels : List Channel) : ℕ :=
  if mode = "node" then nodes.length else channels.length

/-- Number of receivers for the given mode. -/
def numReceivers (mode : String) (nodes : List Node) (channels : List Channel) : ℕ :=
  if mode = "node" then channels.length else nodes.length

/-- The deferred-acceptance run of `OneToOneStableMatching.stable_matching`
at the proposer/receiver index level; `none` when the mode string is
invalid (the Python code would hit an unbound local `proposers`) or the
fuel ran out. -/
def oneToOneRun (mode : String) (fuel : ℕ) (nodes : List Node) (channels : List Channel) :
    Option GSState :=
  if mode = "node" ∨ mode = "channel" then
    gsRun (numProposers mode nodes channels) (numReceivers mode nodes channels)
      (proposerPrefsFor mode nodes channels) (receiverPrefsFor mode nodes channels)
      fuel (gsInit (numProposers mode nodes channels))
  else none

/-- The final pairing of `OneToOneStableMatching.stable_matching` as
(proposer index, receiver index) pairs. -/
def oneToOneIdxPairs (mode : String) (fuel : ℕ) (nodes : List Node)
    (channels : List Channel) : Option (List (ℕ × ℕ)) :=
  (oneToOneRun mode fuel nodes channels).map (gsPairs (numReceivers mode nodes channels))

/-- `OneToOneStableMatching.stable_matching`: the pairing oriented as
(node, channel) regardless of the proposer role. -/
def OneToOneStableMatching.stable_matching (mode : String) (fuel : ℕ)
    (nodes : List Node) (channels : List Channel) : Option (List (Node × Channel)) :=
  (oneToOneIdxPairs mode fuel nodes channels).map fun pr =>
    if mode = "node" then
      pr.map fun ij => (nodes.getD ij.1 dNode, channels.getD ij.2 dChannel)
    else
      pr.map fun ij => (nodes.getD ij.2 dNode, channels.getD ij.1 dChannel)

/-- The inductive invariant of the deferred-acceptance loop: free proposers
are unmatched, the matching is injective, matched proposers are real and
flagged, and every receiver a matched proposer ranks strictly before its
own match is itself matched to a proposer that receiver strictly prefers
(no blocking pair among the assigned entities). -/
structure GSInv (P : ℕ) (pPrefs rPrefs : ℕ → List ℕ) (s : GSState) : Prop where
  free_unmatched : ∀ i, s.free i = true → ∀ j, s.partner j ≠ some i
  partner_inj : ∀ j j' i, s.partner j = some i → s.partner j' = some i → j = j'
  partner_lt : ∀ j i, s.partner j = some i → i < P ∧ s.free i = false
  noblock : ∀ j i, s.partner j = some i →
    ∀ j', (pPrefs i).indexOf j' < (pPrefs i).indexOf j →
      ∃ q, s.partner j' = some q ∧ (rPrefs j').indexOf q < (rPrefs j').indexOf i

/-- State of the capacitated deferred-acceptance loop of
`OneToManyStableMatching.stable_matching`: per-receiver partner lists plus
the free-proposer bookkeeping. -/
structure GSMState where
  partners : ℕ → List ℕ
  free : ℕ → Bool
  freeCount : ℕ

/-- Python's `max(l, key=rk)` on `p :: ps`: the first element of maximal
key (later elements replace the current best only when strictly larger). -/
def maxByRank (rk : ℕ → ℕ) (p : ℕ) (ps : List ℕ) : ℕ :=
  ps.foldl (fun best x => if rk best < rk x then x else best) p

/-- The inner scan of a free proposer `i` over its preference list in
`OneToManyStableMatching`: a receiver with spare capacity appends `i`; a
full receiver swaps out its worst-ranked partner iff `i` ranks strictly
better; `none` models the `ValueError` Python's `max` raises on an empty
partner list (reachable only when the capacity is 0). -/
def o2mPropose (rPrefs : ℕ → List ℕ) (cap i : ℕ) : List ℕ → GSMState → Option GSMState
  | [], s => some s
  | j :: rest, s =>
    if (s.partners j).length < cap then
      some { partners := fun j' => if j' = j then s.partners j ++ [i] else s.partners j'
             free := fun i' => if i' = i then false else s.free i'
             freeCount := s.freeCount - 1 }
    else
      match s.partners j with
      | [] => none
      | p :: ps =>
        let worst := maxByRank (fun x => (rPrefs j).indexOf x) p ps
        if (rPrefs j).indexOf i < (rPrefs j).indexOf worst then
          some { partners := fun j' =>
                   if j' = j then (s.partners j).erase worst ++ [i] else s.partners j'
                 free := fun i' => if i' = worst then true else if i' = i then false else s.free i'
                 freeCount := s.freeCount }
        else o2mPropose rPrefs cap i rest s

/-- One proposer's turn (matched proposers are skipped). -/
def o2mScan (pPrefs rPrefs : ℕ → List ℕ) (cap : ℕ) (s : GSMState) (i : ℕ) : Option GSMState :=
  if s.free i = true then o2mPropose rPrefs cap i (pPrefs i) s else some s

/-- One full pass over all proposers. -/
def o2mRound (P : ℕ) (pPrefs rPrefs : ℕ → List ℕ) (cap : ℕ) (s : GSMState) :
    Option GSMState :=
  (List.range P).foldl (fun acc i => acc.bind (fun s' => o2mScan pPrefs rPrefs cap s' i))
    (some s)

/-- The `while free_proposers > 0` loop, with fuel; `none` means the fuel
ran out (the Python loop does not terminate) or a pass crashed. -/
def o2mRun (P : ℕ) (pPrefs rPrefs : ℕ → List ℕ) (cap : ℕ) : ℕ → GSMState → Option GSMState
  | fuel, s =>
    if 0 < s.freeCount then
      match fuel with
      | 0 => none
      | f + 1 => (o2mRound P pPrefs rPrefs cap s).bind (o2mRun P pPrefs rPrefs cap f)
    else some s

/-- Starting state: every receiver's partner list empty, every proposer
free. -/
def o2mInit (P : ℕ) : GSMState :=
  { partners := fun _ => [], free := fun _ => true, freeCount := P }

/-- The final one-to-many assignment as (proposer, receiver) index pairs. -/
def o2mPairs (R : ℕ) (s : GSMState) : List (ℕ × ℕ) :=
  (List.range R).flatMap fun j => (s.partners j).map fun i => (i, j)

/-- `OneToManyStableMatching.stable_matching` at the index level: nodes
propose, channels receive with capacity `cap`. -/
def o2mIdxPairs (cap fuel : ℕ) (nodes : List Node) (channels : List Channel) :
    Option (List (ℕ × ℕ)) :=
  (o2mRun nodes.length (nodePrefIdx nodes channels) (channelPrefIdx nodes) cap fuel
    (o2mInit nodes.length)).map (o2mPairs channels.length)

/-- `OneToManyStableMatching.stable_matching`: the assignment as
(node, channel) pairs. -/
def OneToManyStableMatching.stable_matching (cap fuel : ℕ) (nodes : List Node)
    (channels : List Channel) : Option (List (Node × Channel)) :=
  (o2mIdxPairs cap fuel nodes channels).map fun pr =>
    pr.map fun ij => (nodes.getD ij.1 dNode, channels.getD ij.2 dChannel)

/-- Capacity invariant: no receiver's partner list exceeds the capacity. -/
def CapInv (cap : ℕ) (s : GSMState) : Prop :=
  ∀ j, (s.partners j).length ≤ cap

/-- CDF of the default energy distribution `scipy.stats.uniform` (on
[0,1]), used by the mechanism in `energy` mode; every node carries this
default distribution. -/
noncomputable def uniform01cdf (v : ℝ) : ℝ := max 0 (min 1 v)

/-- PDF of `scipy.stats.uniform`: 1 on [0,1] (both endpoints included, as
scipy evaluates it), 0 elsewhere. -/
noncomputable def uniform01pdf (v : ℝ) : ℝ := if 0 ≤ v ∧ v ≤ 1 then 1 else 0

/-- Python's `min(channels, key=lambda ch: ch.gains[node])`: the first
channel of minimal gain for the node; `none` models the `ValueError` on an
empty channel list. -/
def minByGain (nid : ℕ) : List Channel → Option Channel
  | [] => none
  | c :: cs =>
    some (cs.foldl (fun best c' => if c'.gainFor nid < best.gainFor nid then c' else best) c)

/-- `OptimalSellingMechanism.value`: the node's energy in `energy` mode,
its best-available success probability in `probability` mode, and the
silent fallback `0` for any other mode string. -/
noncomputable def OptimalSellingMechanism.value (mode : String) (node : Node)
    (channels : List Channel) : ℝ :=
  if mode = "energy" then (node.energy : ℝ)
  else if mode = "probability" then
    match minByGain node.id channels with
    | some best => node.probability_of_success (best.gainFor node.id)
    | none => 0
  else 0

/-- `OptimalSellingMechanism.cdf` (the node argument only selects the
default uniform energy distribution).  The silent fallback for an unknown
mode is `1`. -/
noncomputable def OptimalSellingMechanism.cdf (mode : String) (v : ℝ) (numChannels : ℕ) : ℝ :=
  if mode = "energy" then uniform01cdf v
  else if mode = "probability" then
    (1 - v ^ ((numChannels : ℤ) - 1)) * (numChannels : ℝ) / ((numChannels : ℝ) - 1)
  else 1

/-- `OptimalSellingMechanism.pdf`; the silent fallback for an unknown mode
is `1`. -/
noncomputable def OptimalSellingMechanism.pdf (mode : String) (v : ℝ) (numChannels : ℕ) : ℝ :=
  if mode = "energy" then uniform01pdf v
  else if mode = "probability" then
    ((numChannels : ℝ) * v - v ^ (numChannels : ℤ)) / ((numChannels : ℝ) - 1)
  else 1

/-- `OptimalSellingMechanism.c`: the virtual value
`v - (1 - F(v)) / f(v)` with `n = len(channels)` taken from the channel
list passed in. -/
noncomputable def OptimalSellingMechanism.c (mode : String) (node : Node)
    (channels : List Channel) : ℝ :=
  let v := OptimalSellingMechanism.value mode node channels
  v - (1 - OptimalSellingMechanism.cdf mode v channels.length) /
      OptimalSellingMechanism.pdf mode v channels.length

/-- `max(C)` over a nonempty list. -/
noncomputable def listMax (x : ℝ) (xs : List ℝ) : ℝ := xs.foldl max x

/-- `np.argmax`: the first index attaining the maximum. -/
noncomputable def argmaxFirst (x : ℝ) (xs : List ℝ) : ℕ :=
  (xs.foldl
    (fun (acc : ℕ × ℝ × ℕ) y =>
      if acc.2.1 < y then (acc.2.2, y, acc.2.2 + 1) else (acc.1, acc.2.1, acc.2.2 + 1))
    (0, x, 1)).1

/-- `OptimalSellingMechanism.q`: `none` when the maximal virtual value is
negative, otherwise the first index attaining it (`random.choice` over the
singleton `[np.argmax(C)]` is deterministic).  `q` is never called on an
empty waiting pool by `matching` (Python's `max([])` would raise). -/
noncomputable def OptimalSellingMechanism.q (mode : String) (nodes : List Node)
    (channels : List Channel) : Option ℕ :=
  match nodes.map (fun nd => OptimalSellingMechanism.c mode nd channels) with
  | [] => none
  | x :: xs => if listMax x xs < 0 then none else some (argmaxFirst x xs)

/-- The `while len(waiting_nodes) > 0` loop of
`OptimalSellingMechanism.matching`.  Each round removes exactly one
waiting node, so the fuel `nodes.length` used by `matching` never runs
out; the free-channel list is passed through UNCHANGED, exactly as the
source never removes an assigned channel from `free_channels`.  `none`
models the `ValueError` of `min()` over an empty free-channel list. -/
noncomputable def OptimalSellingMechanism.matchingAux (mode : String) :
    ℕ → List Node → List Channel → List (Node × Channel) → Option (List (Node × Channel))
  | _, [], _, acc => some acc
  | 0, _ :: _, _, acc => some acc
  | fuel + 1, w :: ws, free, acc =>
    match OptimalSellingMechanism.q mode (w :: ws) free with
    | none => some acc
    | some idx =>
      let winner := (w :: ws).getD idx w
      let waiting := (w :: ws).eraseIdx idx
      match minByGain winner.id free with
      | none => none
      | some best =>
        OptimalSellingMechanism.matchingAux mode fuel waiting free (acc ++ [(winner, best)])

/-- `OptimalSellingMechanism.matching`. -/
noncomputable def OptimalSellingMechanism.matching (mode : String) (nodes : List Node)
    (channels : List Channel) : Option (List (Node × Channel)) :=
  OptimalSellingMechanism.matchingAux mode nodes.length nodes channels []

/-- A trivial protocol (no transmissions, no draws consumed); one admissible
instance of the polymorphic `Protocol.execute` contract. -/
def nullProtocol : ProtocolFun := fun _ _ _ pos => (0, [], pos)

/-- A one-node, one-channel network state whose draw stream is
5, 7, 11, 11, ...: the two phase orders consume the stream differently, so
the energy harvested for the node in the slot differs between them. -/
def c5state : NetworkState :=
  { cfg := ⟨1, true, false, true⟩
    nodes := [Node.mk 0 0 false]
    channels := [Channel.mk 0 [0]]
    draws := fun k => if k = 0 then 5 else if k = 1 then 7 else 11
    pos := 0 }

theorem insertByKey_perm (key : α → ℚ) (a : α) (l : List α) :
    (insertByKey key a l).Perm (a :: l) := by
  induction l with
  | nil => exact List.Perm.refl _
  | cons b bs ih =>
    unfold insertByKey
    by_cases h : key b ≤ key a
    · rw [if_pos h]
      exact ((ih.cons b).trans (List.Perm.swap a b bs))
    · rw [if_neg h]

theorem sortByKey_perm (key : α → ℚ) (l : List α) :
    (sortByKey key l).Perm l := by
  suffices h : ∀ (l acc : List α),
      (l.foldl (fun acc a => insertByKey key a acc) acc).Perm (acc ++ l) by
    simpa using h l []
  intro l
  induction l with
  | nil => intro acc; simp
  | cons a as ih =>
    intro acc
    refine (ih (insertByKey key a acc)).trans ?_
    refine ((insertByKey_perm key a acc).append_right as).trans ?_
    exact List.perm_middle.symm

theorem indexOf_append_self_le (d rest : List ℕ) (j : ℕ) :
    (d ++ j :: rest).indexOf j ≤ d.length := by
  induction d with
  | nil => simp [List.indexOf_cons]
  | cons a as ih =>
    simp only [List.cons_append, List.indexOf_cons]
    cases h : (a == j) with
    | true => simp [h]
    | false =>
      simp only [h, cond_false, List.length_cons]
      exact Nat.succ_le_succ ih

theorem mem_of_indexOf_lt_length (d l : List ℕ) (j' : ℕ)
    (h : (d ++ l).indexOf j' < d.length) : j' ∈ d := by
  induction d with
  | nil => simp at h
  | cons a as ih =>
    simp only [List.cons_append, List.indexOf_cons] at h
    cases hb : (a == j') with
    | true =>
      have ha : a = j' := by simpa using hb
      subst ha
      exact List.mem_cons_self _ _
    | false =>
      rw [hb, cond_false, List.length_cons] at h
      exact List.mem_cons_of_mem _ (ih (Nat.lt_of_succ_lt_succ h))

theorem gsPropose_inv {P R : ℕ} {pPrefs rPrefs : ℕ → List ℕ}
    (HpR : ∀ i, i < P → ∀ j ∈ pPrefs i, j < R)
    (HrC : ∀ j, j < R → ∀ i, i < P → i ∈ rPrefs j)
    {i : ℕ} (hi : i < P) {s : GSState} (hfree : s.free i = true)
    (hinv : GSInv P pPrefs rPrefs s) :
    ∀ (rest done : List ℕ), pPrefs i = done ++ rest →
      (∀ j' ∈ done, ∃ q, s.partner j' = some q ∧
        (rPrefs j').indexOf q < (rPrefs j').indexOf i) →
      GSInv P pPrefs rPrefs (gsPropose rPrefs i rest s) := by
  intro rest
  induction rest with
  | nil =>
    intro done _ _
    simpa [gsPropose] using hinv
  | cons j rest ih =>
    intro done hsplit hdone
    have hjmem : j ∈ pPrefs i := by
      rw [hsplit]; exact List.mem_append_right _ (List.mem_cons_self _ _)
    have hjR : j < R := HpR i hi j hjmem
    cases hpj : s.partner j with
    | none =>
      simp only [gsPropose, hpj]
      refine ⟨?_, ?_, ?_, ?_⟩
      · intro i' hf' j''
        dsimp only at hf' ⊢
        by_cases hii : i' = i
        · rw [if_pos hii] at hf'; cases hf'
        · rw [if_neg hii] at hf'
          by_cases hjj : j'' = j
          · rw [if_pos hjj]
            intro hc; injection hc with hc; exact hii hc.symm
          · rw [if_neg hjj]; exact hinv.free_unmatched i' hf' j''
      · intro j1 j2 i1 h1 h2
        dsimp only at h1 h2
        by_cases e1 : j1 = j <;> by_cases e2 : j2 = j
        · rw [e1, e2]
        · exfalso
          rw [if_pos e1] at h1; rw [if_neg e2] at h2
          injection h1 with h1
          exact hinv.free_unmatched i hfree j2 (h1 ▸ h2)
        · exfalso
          rw [if_neg e1] at h1; rw [if_pos e2] at h2
          injection h2 with h2
          exact hinv.free_unmatched i hfree j1 (h2 ▸ h1)
        · rw [if_neg e1] at h1; rw [if_neg e2] at h2
          exact hinv.partner_inj j1 j2 i1 h1 h2
      · intro j'' i'' h''
        dsimp only at h'' ⊢
        by_cases hjj : j'' = j
        · rw [if_pos hjj] at h''; injection h'' with h''; subst h''
          exact ⟨hi, by rw [if_pos rfl]⟩
        · rw [if_neg hjj] at h''
          obtain ⟨hP, hF⟩ := hinv.partner_lt j'' i'' h''
          refine ⟨hP, ?_⟩
          by_cases hii : i'' = i
          · rw [if_pos hii]
          · rw [if_neg hii]; exact hF
      · intro j2 i2 h2 j' hrank
        dsimp only at h2 ⊢
        by_cases e2 : j2 = j
        · subst e2
          rw [if_pos rfl] at h2; injection h2 with h2; subst h2
          have hle : (pPrefs i).indexOf j2 ≤ done.length := by
            rw [hsplit]; exact indexOf_append_self_le done rest j2
          have hmem : j' ∈ done := by
            apply mem_of_indexOf_lt_length done (j2 :: rest)
            rw [← hsplit]
            exact lt_of_lt_of_le hrank hle
          obtain ⟨q2, hq2, hr2⟩ := hdone j' hmem
          have hjj' : j' ≠ j2 := by
            intro h; rw [h, hpj] at hq2; cases hq2
          exact ⟨q2, by rw [if_neg hjj']; exact hq2, hr2⟩
        · rw [if_neg e2] at h2
          obtain ⟨q2, hq2, hr2⟩ := hinv.noblock j2 i2 h2 j' hrank
          have hjj' : j' ≠ j := by
            intro h; rw [h, hpj] at hq2; cases hq2
          exact ⟨q2, by rw [if_neg hjj']; exact hq2, hr2⟩
    | some q =>
      have hqP : q < P := (hinv.partner_lt j q hpj).1
      have hqF : s.free q = false := (hinv.partner_lt j q hpj).2
      have hiq : i ≠ q := by
        intro h; rw [h, hqF] at hfree; cases hfree
      by_cases hcmp : (rPrefs j).indexOf i < (rPrefs j).indexOf q
      · simp only [gsPropose, hpj]
        rw [if_pos hcmp]
        refine ⟨?_, ?_, ?_, ?_⟩
        · intro i' hf' j''
          dsimp only at hf' ⊢
          by_cases hq' : i' = q
          · subst hq'
            by_cases hjj : j'' = j
            · rw [if_pos hjj]
              intro hc; injection hc with hc; exact hiq hc
            · rw [if_neg hjj]
              intro hc; exact hjj (hinv.partner_inj j'' j i' hc hpj)
          · rw [if_neg hq'] at hf'
            by_cases hii : i' = i
            · rw [if_pos hii] at hf'; cases hf'
            · rw [if_neg hii] at hf'
              by_cases hjj : j'' = j
              · rw [if_pos hjj]
                intro hc; injection hc with hc; exact hii hc.symm
              · rw [if_neg hjj]; exact hinv.free_unmatched i' hf' j''
        · intro j1 j2 i1 h1 h2
          dsimp only at h1 h2
          by_cases e1 : j1 = j <;> by_cases e2 : j2 = j
          · rw [e1, e2]
          · exfalso
            rw [if_pos e1] at h1; rw [if_neg e2] at h2
            injection h1 with h1
            exact hinv.free_unmatched i hfree j2 (h1 ▸ h2)
          · exfalso
            rw [if_neg e1] at h1; rw [if_pos e2] at h2
            injection h2 with h2
            exact hinv.free_unmatched i hfree j1 (h2 ▸ h1)
          · rw [if_neg e1] at h1; rw [if_neg e2] at h2
            exact hinv.partner_inj j1 j2 i1 h1 h2
        · intro j'' i'' h''
          dsimp only at h'' ⊢
          by_cases hjj : j'' = j
          · rw [if_pos hjj] at h''; injection h'' with h''; subst h''
            refine ⟨hi, ?_⟩
            rw [if_neg hiq, if_pos rfl]
          · rw [if_neg hjj] at h''
            obtain ⟨hP, hF⟩ := hinv.partner_lt j'' i'' h''
            refine ⟨hP, ?_⟩
            have hne_q : i'' ≠ q := by
              intro h; exact hjj (hinv.partner_inj j'' j q (h ▸ h'') hpj)
            have hne_i : i'' ≠ i := by
              intro h; exact hinv.free_unmatched i hfree j'' (h ▸ h'')
            rw [if_neg hne_q, if_neg hne_i]; exact hF
        · intro j2 i2 h2 j' hrank
          dsimp only at h2 ⊢
          by_cases e2 : j2 = j
          · subst e2
            rw [if_pos rfl] at h2; injection h2 with h2; subst h2
            have hle : (pPrefs i).indexOf j2 ≤ done.length := by
              rw [hsplit]; exact indexOf_append_self_le done rest j2
            have hmem : j' ∈ done := by
              apply mem_of_indexOf_lt_length done (j2 :: rest)
              rw [← hsplit]
              exact lt_of_lt_of_le hrank hle
            obtain ⟨q2, hq2, hr2⟩ := hdone j' hmem
            have hjj' : j' ≠ j2 := by
              intro h; subst h
              rw [hpj] at hq2; injection hq2 with hq2; subst hq2
              exact lt_asymm hcmp hr2
            exact ⟨q2, by rw [if_neg hjj']; exact hq2, hr2⟩
          · rw [if_neg e2] at h2
            by_cases hj' : j' = j
            · subst hj'
              obtain ⟨q0, hq0, hr0⟩ := hinv.noblock j2 i2 h2 j' hrank
              rw [hpj] at hq0; injection hq0 with hq0; subst hq0
              exact ⟨i, by rw [if_pos rfl], lt_trans hcmp hr0⟩
            · obtain ⟨q0, hq0, hr0⟩ := hinv.noblock j2 i2 h2 j' hrank
              exact ⟨q0, by rw [if_neg hj']; exact hq0, hr0⟩
      · simp only [gsPropose, hpj]
        rw [if_neg hcmp]
        refine ih (done ++ [j]) ?_ ?_
        · rw [List.append_assoc]; exact hsplit
        · intro j' hj'
          rcases List.mem_append.mp hj' with h | h
          · exact hdone j' h
          · have hj : j' = j := by simpa using h
            subst hj
            refine ⟨q, hpj, ?_⟩
            have hmi : i ∈ rPrefs j' := HrC j' hjR i hi
            have hmq : q ∈ rPrefs j' := HrC j' hjR q hqP
            have hle : (rPrefs j').indexOf q ≤ (rPrefs j').indexOf i := not_lt.mp hcmp
            have hne : (rPrefs j').indexOf q ≠ (rPrefs j').indexOf i := by
              intro h
              exact hiq ((List.indexOf_inj hmq hmi).mp h).symm
            exact lt_of_le_of_ne hle hne

theorem gsScan_inv {P R : ℕ} {pPrefs rPrefs : ℕ → List ℕ}
    (HpR : ∀ i, i < P → ∀ j ∈ pPrefs i, j < R)
    (HrC : ∀ j, j < R → ∀ i, i < P → i ∈ rPrefs j)
    {s : GSState} (hinv : GSInv P pPrefs rPrefs s) {i : ℕ} (hi : i < P) :
    GSInv P pPrefs rPrefs (gsScan pPrefs rPrefs s i) := by
  unfold gsScan
  by_cases hf : s.free i = true
  · rw [if_pos hf]
    exact gsPropose_inv HpR HrC hi hf hinv (pPrefs i) [] rfl
      (by intro j' h; cases h)
  · rw [if_neg hf]
    exact hinv

theorem gsRound_inv {P R : ℕ} {pPrefs rPrefs : ℕ → List ℕ}
    (HpR : ∀ i, i < P → ∀ j ∈ pPrefs i, j < R)
    (HrC : ∀ j, j < R → ∀ i, i < P → i ∈ rPrefs j)
    {s : GSState} (hinv : GSInv P pPrefs rPrefs s) :
    GSInv P pPrefs rPrefs (gsRound P pPrefs rPrefs s) := by
  unfold gsRound
  suffices h : ∀ (l : List ℕ) (s : GSState), (∀ i ∈ l, i < P) →
      GSInv P pPrefs rPrefs s →
      GSInv P pPrefs rPrefs (l.foldl (gsScan pPrefs rPrefs) s) by
    exact h (List.range P) s (fun i hi => List.mem_range.mp hi) hinv
  intro l
  induction l with
  | nil => intro s _ h; exact h
  | cons a as ih =>
    intro s hl h
    exact ih _ (fun i hi => hl i (List.mem_cons_of_mem _ hi))
      (gsScan_inv HpR HrC h (hl a (List.mem_cons_self _ _)))

theorem gsRun_inv {P R : ℕ} {pPrefs rPrefs : ℕ → List ℕ}
    (HpR : ∀ i, i < P → ∀ j ∈ pPrefs i, j < R)
    (HrC : ∀ j, j < R → ∀ i, i < P → i ∈ rPrefs j) :
    ∀ (fuel : ℕ) (s s' : GSState), GSInv P pPrefs rPrefs s →
      gsRun P R pPrefs rPrefs fuel s = some s' → GSInv P pPrefs rPrefs s' := by
  intro fuel
  induction fuel with
  | zero =>
    intro s s' hinv h
    unfold gsRun at h
    by_cases hg : P - R < s.freeCount
    · rw [if_pos hg] at h; cases h
    · rw [if_neg hg] at h; injection h with h; exact h ▸ hinv
  | succ f ih =>
    intro s s' hinv h
    unfold gsRun at h
    by_cases hg : P - R < s.freeCount
    · rw [if_pos hg] at h
      exact ih _ _ (gsRound_inv HpR HrC hinv) h
    · rw [if_neg hg] at h; injection h with h; exact h ▸ hinv

theorem gsInit_inv (P : ℕ) (pPrefs rPrefs : ℕ → List ℕ) :
    GSInv P pPrefs rPrefs (gsInit P) := by
  refine ⟨?_, ?_, ?_, ?_⟩ <;> simp [gsInit]

theorem mem_sortByKey_range (key : ℕ → ℚ) (n x : ℕ) :
    x ∈ sortByKey key (List.range n) ↔ x < n := by
  rw [(sortByKey_perm key (List.range n)).mem_iff]
  exact List.mem_range

theorem gsPairs_mem (R : ℕ) (s : GSState) (i j : ℕ) :
    (i, j) ∈ gsPairs R s ↔ j < R ∧ s.partner j = some i := by
  simp only [gsPairs, List.mem_filterMap, List.mem_range, Option.map_eq_some']
  constructor
  · rintro ⟨a, ha, i0, hp, he⟩
    injection he with h1 h2
    subst h1; subst h2
    exact ⟨ha, hp⟩
  · rintro ⟨hj, hp⟩
    exact ⟨j, hj, i, hp, rfl⟩

theorem proposerPrefsFor_sub (mode : String) (nodes : List Node) (channels : List Channel)
    (hm : mode = "node" ∨ mode = "channel") :
    ∀ i, i < numProposers mode nodes channels →
      ∀ j ∈ proposerPrefsFor mode nodes channels i, j < numReceivers mode nodes channels := by
  rcases hm with hm | hm <;> subst hm <;>
    intro i _ j hj
  · rw [proposerPrefsFor, if_pos rfl] at hj
    rw [numReceivers, if_pos rfl]
    exact (mem_sortByKey_range _ _ _).mp hj
  · rw [proposerPrefsFor, if_neg (by decide)] at hj
    rw [numReceivers, if_neg (by decide)]
    exact (mem_sortByKey_range _ _ _).mp hj

theorem receiverPrefsFor_cov (mode : String) (nodes : List Node) (channels : List Channel)
    (hm : mode = "node" ∨ mode = "channel") :
    ∀ j, j < numReceivers mode nodes channels →
      ∀ i, i < numProposers mode nodes channels →
        i ∈ receiverPrefsFor mode nodes channels j := by
  rcases hm with hm | hm <;> subst hm <;>
    intro j _ i hi
  · rw [receiverPrefsFor, if_pos rfl]
    rw [numProposers, if_pos rfl] at hi
    exact (mem_sortByKey_range _ _ _).mpr hi
  · rw [receiverPrefsFor, if_neg (by decide)]
    rw [numProposers, if_neg (by decide)] at hi
    exact (mem_sortByKey_range _ _ _).mpr hi

/-- C3: the pairing returned by `OneToOneStableMatching.stable_matching`
(for either proposer role, over any input nodes and channels, with
preferences built from gains and energies) contains no blocking pair: no
proposer `i` ranks a receiver `j'` strictly before its own match `j` while
`j'` simultaneously ranks `i` strictly before its current partner `q`. -/
theorem oneToOne_stable_matching_no_blocking_pair
    (mode : String) (fuel : ℕ) (nodes : List Node) (channels : List Channel)
    (pr : List (ℕ × ℕ))
    (h : oneToOneIdxPairs mode fuel nodes channels = some pr) :
    ∀ i j, (i, j) ∈ pr →
      ∀ j', (proposerPrefsFor mode nodes channels i).indexOf j' <
            (proposerPrefsFor mode nodes channels i).indexOf j →
        ∃ q, (q, j') ∈ pr ∧
          (receiverPrefsFor mode nodes channels j').indexOf q <
          (receiverPrefsFor mode nodes channels j').indexOf i := by
  by_cases hm : mode = "node" ∨ mode = "channel"
  · rw [oneToOneIdxPairs, oneToOneRun, if_pos hm] at h
    obtain ⟨s', hs', rfl⟩ := Option.map_eq_some'.mp h
    have HpR := proposerPrefsFor_sub mode nodes channels hm
    have HrC := receiverPrefsFor_cov mode nodes channels hm
    have hinv := gsRun_inv HpR HrC fuel _ s' (gsInit_inv _ _ _) hs'
    intro i j hij j' hrank
    obtain ⟨hjR, hp⟩ := (gsPairs_mem _ s' i j).mp hij
    obtain ⟨q, hq, hr⟩ := hinv.noblock j i hp j' hrank
    have hiP : i < numProposers mode nodes channels := (hinv.partner_lt j i hp).1
    have hj'mem : j' ∈ proposerPrefsFor mode nodes channels i := by
      apply List.indexOf_lt_length.mp
      exact lt_of_lt_of_le hrank List.indexOf_le_length
    have hj'R : j' < numReceivers mode nodes channels := HpR i hiP j' hj'mem
    exact ⟨q, (gsPairs_mem _ s' q j').mpr ⟨hj'R, hq⟩, hr⟩
  · rw [oneToOneIdxPairs, oneToOneRun, if_neg hm] at h
    cases h

theorem oneToOne_no_blocking_pair_witness :
    oneToOneIdxPairs "node" 1 [Node.mk 0 1 true] [Channel.mk 0 [2]] = some [(0, 0)] ∧
    (∀ i j, (i, j) ∈ [((0 : ℕ), (0 : ℕ))] →
      ∀ j', (proposerPrefsFor "node" [Node.mk 0 1 true] [Channel.mk 0 [2]] i).indexOf j' <
            (proposerPrefsFor "node" [Node.mk 0 1 true] [Channel.mk 0 [2]] i).indexOf j →
        ∃ q, (q, j') ∈ [((0 : ℕ), (0 : ℕ))] ∧
          (receiverPrefsFor "node" [Node.mk 0 1 true] [Channel.mk 0 [2]] j').indexOf q <
          (receiverPrefsFor "node" [Node.mk 0 1 true] [Channel.mk 0 [2]] j').indexOf i) :=
  ⟨by decide,
   oneToOne_stable_matching_no_blocking_pair "node" 1 [Node.mk 0 1 true] [Channel.mk 0 [2]]
     [(0, 0)] (by decide)⟩

theorem maxByRank_mem (rk : ℕ → ℕ) : ∀ (ps : List ℕ) (p : ℕ), maxByRank rk p ps ∈ p :: ps := by
  intro ps
  induction ps with
  | nil => intro p; exact List.mem_singleton.mpr rfl
  | cons x xs ih =>
    intro p
    by_cases h : rk p < rk x
    · have : maxByRank rk p (x :: xs) = maxByRank rk x xs := by
        simp [maxByRank, h]
      rw [this]
      rcases List.mem_cons.mp (ih x) with h' | h'
      · rw [h']
        exact List.mem_cons_of_mem _ (List.mem_cons_self _ _)
      · exact List.mem_cons_of_mem _ (List.mem_cons_of_mem _ h')
    · have : maxByRank rk p (x :: xs) = maxByRank rk p xs := by
        simp [maxByRank, h]
      rw [this]
      rcases List.mem_cons.mp (ih p) with h' | h'
      · rw [h']
        exact List.mem_cons_self _ _
      · exact List.mem_cons_of_mem _ (List.mem_cons_of_mem _ h')

theorem o2mPropose_cap {rPrefs : ℕ → List ℕ} {cap i : ℕ} :
    ∀ (rest : List ℕ) {s s' : GSMState}, CapInv cap s →
      o2mPropose rPrefs cap i rest s = some s' → CapInv cap s' := by
  intro rest
  induction rest with
  | nil =>
    intro s s' hinv h
    simp only [o2mPropose] at h
    injection h with h
    exact h ▸ hinv
  | cons j rest ih =>
    intro s s' hinv h
    simp only [o2mPropose] at h
    by_cases hlen : (s.partners j).length < cap
    · rw [if_pos hlen] at h
      injection h with h
      subst h
      intro j'
      dsimp only
      by_cases hj : j' = j
      · rw [if_pos hj, List.length_append, List.length_singleton]
        exact Nat.succ_le_of_lt (hj ▸ hlen)
      · rw [if_neg hj]
        exact hinv j'
    · rw [if_neg hlen] at h
      cases hp : s.partners j with
      | nil => rw [hp] at h; cases h
      | cons p ps =>
        rw [hp] at h
        dsimp only at h
        by_cases hcmp : (rPrefs j).indexOf i <
            (rPrefs j).indexOf (maxByRank (fun x => (rPrefs j).indexOf x) p ps)
        · rw [if_pos hcmp] at h
          injection h with h
          subst h
          intro j'
          dsimp only
          by_cases hj : j' = j
          · rw [if_pos hj]
            have hmem : maxByRank (fun x => (rPrefs j).indexOf x) p ps ∈ p :: ps :=
              maxByRank_mem _ ps p
            have hle := hinv j
            rw [hp] at hle
            have hge := not_lt.mp hlen
            rw [hp] at hge
            rw [List.length_append, List.length_singleton,
              List.length_erase_of_mem hmem]
            simp only [List.length_cons] at hle hge ⊢
            omega
          · rw [if_neg hj]
            exact hinv j'
        · rw [if_neg hcmp] at h
          exact ih hinv h

theorem o2mScan_cap {pPrefs rPrefs : ℕ → List ℕ} {cap : ℕ} {s s' : GSMState} {i : ℕ}
    (hinv : CapInv cap s) (h : o2mScan pPrefs rPrefs cap s i = some s') : CapInv cap s' := by
  unfold o2mScan at h
  by_cases hf : s.free i = true
  · rw [if_pos hf] at h
    exact o2mPropose_cap (pPrefs i) hinv h
  · rw [if_neg hf] at h
    injection h with h
    exact h ▸ hinv

theorem o2mRound_cap {P : ℕ} {pPrefs rPrefs : ℕ → List ℕ} {cap : ℕ} {s s' : GSMState}
    (hinv : CapInv cap s) (h : o2mRound P pPrefs rPrefs cap s = some s') : CapInv cap s' := by
  unfold o2mRound at h
  suffices key : ∀ (l : List ℕ) (t : Option GSMState) (s' : GSMState),
      (∀ u, t = some u → CapInv cap u) →
      l.foldl (fun acc i => acc.bind (fun x => o2mScan pPrefs rPrefs cap x i)) t = some s' →
      CapInv cap s' by
    exact key (List.range P) (some s) s'
      (fun u hu => by injection hu with hu; exact hu ▸ hinv) h
  intro l
  induction l with
  | nil =>
    intro t s' ht h
    exact ht s' h
  | cons a as ih =>
    intro t s' ht h
    refine ih _ s' ?_ h
    intro u hu
    cases t with
    | none => cases hu
    | some v => exact o2mScan_cap (ht v rfl) hu

theorem o2mRun_cap {P : ℕ} {pPrefs rPrefs : ℕ → List ℕ} {cap : ℕ} :
    ∀ (fuel : ℕ) {s s' : GSMState}, CapInv cap s →
      o2mRun P pPrefs rPrefs cap fuel s = some s' → CapInv cap s' := by
  intro fuel
  induction fuel with
  | zero =>
    intro s s' hinv h
    unfold o2mRun at h
    by_cases hg : 0 < s.freeCount
    · rw [if_pos hg] at h; cases h
    · rw [if_neg hg] at h; injection h with h; exact h ▸ hinv
  | succ f ih =>
    intro s s' hinv h
    unfold o2mRun at h
    by_cases hg : 0 < s.freeCount
    · rw [if_pos hg] at h
      cases hr : o2mRound P pPrefs rPrefs cap s with
      | none => rw [hr] at h; cases h
      | some u =>
        rw [hr] at h
        exact ih (o2mRound_cap hinv hr) h
    · rw [if_neg hg] at h; injection h with h; exact h ▸ hinv

theorem o2mPairs_filter_length (s : GSMState) (j : ℕ) :
    ∀ (L : List ℕ), L.Nodup →
      ((L.flatMap fun j' => (s.partners j').map fun i => (i, j')).filter
        (fun ij => ij.2 = j)).length = if j ∈ L then (s.partners j).length else 0 := by
  intro L
  induction L with
  | nil => intro _; simp
  | cons a as ih =>
    intro hnd
    rw [List.flatMap_cons, List.filter_append, List.length_append]
    have has := ih (List.Nodup.of_cons hnd)
    by_cases haj : a = j
    · subst haj
      have hnot : a ∉ as := (List.nodup_cons.mp hnd).1
      rw [if_pos (List.mem_cons_self _ _), has, if_neg hnot]
      have hfull : ((s.partners a).map fun i => (i, a)).filter (fun ij => ij.2 = a) =
          (s.partners a).map fun i => (i, a) := by
        apply List.filter_eq_self.mpr
        intro x hx
        obtain ⟨i, _, rfl⟩ := List.mem_map.mp hx
        simp
      rw [hfull, List.length_map, Nat.add_zero]
    · rw [has]
      have hnone : ((s.partners a).map fun i => (i, a)).filter (fun ij => ij.2 = j) = [] := by
        apply List.filter_eq_nil_iff.mpr
        intro x hx
        obtain ⟨i, _, rfl⟩ := List.mem_map.mp hx
        simp [haj]
      rw [hnone]
      by_cases hjas : j ∈ as
      · rw [if_pos hjas, if_pos (List.mem_cons_of_mem _ hjas), List.length_nil,
          Nat.zero_add]
      · rw [if_neg hjas, if_neg ?_]
        · rw [List.length_nil]
        · intro hc
          rcases List.mem_cons.mp hc with hc | hc
          · exact haj hc.symm
          · exact hjas hc

/-- C4: at every normal termination of
`OneToManyStableMatching.stable_matching`, no channel holds more than
`max_matches_per_receiver` assigned nodes. -/
theorem oneToMany_capacity_bound (cap fuel : ℕ) (nodes : List Node)
    (channels : List Channel) (pr : List (ℕ × ℕ))
    (h : o2mIdxPairs cap fuel nodes channels = some pr) :
    ∀ j, (pr.filter (fun ij => ij.2 = j)).length ≤ cap := by
  obtain ⟨s', hs', rfl⟩ := Option.map_eq_some'.mp h
  have hinv : CapInv cap s' :=
    o2mRun_cap fuel (fun j => by simp [o2mInit]) hs'
  intro j
  unfold o2mPairs
  rw [o2mPairs_filter_length s' j (List.range channels.length) (List.nodup_range _)]
  by_cases hj : j ∈ List.range channels.length
  · rw [if_pos hj]; exact hinv j
  · rw [if_neg hj]; exact Nat.zero_le _

theorem oneToMany_capacity_bound_witness :
    o2mIdxPairs 3 1 [Node.mk 0 1 true] [Channel.mk 0 [2]] = some [(0, 0)] ∧
    ∀ j, (([((0 : ℕ), (0 : ℕ))]).filter (fun ij => ij.2 = j)).length ≤ 3 :=
  ⟨by decide,
   oneToMany_capacity_bound 3 1 [Node.mk 0 1 true] [Channel.mk 0 [2]] [(0, 0)] (by decide)⟩

theorem osm_c_energy (node : Node) (channels : List Channel)
    (h0 : 0 ≤ node.energy) (h1 : node.energy ≤ 1) :
    OptimalSellingMechanism.c "energy" node channels = 2 * (node.energy : ℝ) - 1 := by
  have h0' : (0 : ℝ) ≤ (node.energy : ℝ) := by exact_mod_cast h0
  have h1' : ((node.energy : ℚ) : ℝ) ≤ 1 := by exact_mod_cast h1
  rw [OptimalSellingMechanism.c, OptimalSellingMechanism.value, if_pos rfl,
    OptimalSellingMechanism.cdf, if_pos rfl, OptimalSellingMechanism.pdf, if_pos rfl]
  rw [uniform01cdf, uniform01pdf, if_pos ⟨h0', h1'⟩, min_eq_right h1', max_eq_right h0']
  ring

theorem OSM_matchingAux_cons (mode : String) (fuel : ℕ) (w : Node) (ws : List Node)
    (free : List Channel) (acc : List (Node × Channel)) :
    OptimalSellingMechanism.matchingAux mode (fuel + 1) (w :: ws) free acc =
    match OptimalSellingMechanism.q mode (w :: ws) free with
    | none => some acc
    | some idx =>
      match minByGain ((w :: ws).getD idx w).id free with
      | none => none
      | some best =>
        OptimalSellingMechanism.matchingAux mode fuel ((w :: ws).eraseIdx idx) free
          (acc ++ [((w :: ws).getD idx w, best)]) := rfl

/-- C1 (failing evaluation): with two eligible nodes and two channels the
mechanism assigns BOTH winners the same lowest-gain channel: the winning
channel is never removed from `free_channels`, so the free-channel count
(and the `n` fed to the CDF/PDF) never decreases. -/
theorem optimal_matching_channel_not_removed :
    OptimalSellingMechanism.matching "energy"
      [Node.mk 0 (9/10) true, Node.mk 1 (4/5) true]
      [Channel.mk 0 [1/10, 1/10], Channel.mk 1 [1/5, 1/5]] =
    some [(Node.mk 0 (9/10) true, Channel.mk 0 [1/10, 1/10]),
          (Node.mk 1 (4/5) true, Channel.mk 0 [1/10, 1/10])] := by
  have hc1 : OptimalSellingMechanism.c "energy" (Node.mk 0 (9/10) true)
      [Channel.mk 0 [1/10, 1/10], Channel.mk 1 [1/5, 1/5]] = 4/5 := by
    rw [osm_c_energy _ _ (by norm_num) (by norm_num)]
    norm_num
  have hc2 : OptimalSellingMechanism.c "energy" (Node.mk 1 (4/5) true)
      [Channel.mk 0 [1/10, 1/10], Channel.mk 1 [1/5, 1/5]] = 3/5 := by
    rw [osm_c_energy _ _ (by norm_num) (by norm_num)]
    norm_num
  have hq1 : OptimalSellingMechanism.q "energy"
      [Node.mk 0 (9/10) true, Node.mk 1 (4/5) true]
      [Channel.mk 0 [1/10, 1/10], Channel.mk 1 [1/5, 1/5]] = some 0 := by
    rw [OptimalSellingMechanism.q, List.map_cons, List.map_cons, List.map_nil, hc1, hc2]
    norm_num [listMax, argmaxFirst]
  have hq2 : OptimalSellingMechanism.q "energy" [Node.mk 1 (4/5) true]
      [Channel.mk 0 [1/10, 1/10], Channel.mk 1 [1/5, 1/5]] = some 0 := by
    rw [OptimalSellingMechanism.q, List.map_cons, List.map_nil, hc2]
    norm_num [listMax, argmaxFirst]
  have hmin0 : minByGain 0
      [Channel.mk 0 [1/10, 1/10], Channel.mk 1 [1/5, 1/5]] = some (Channel.mk 0 [1/10, 1/10]) := by
    rw [minByGain]
    norm_num [Channel.gainFor, List.getD]
  have hmin1 : minByGain 1
      [Channel.mk 0 [1/10, 1/10], Channel.mk 1 [1/5, 1/5]] = some (Channel.mk 0 [1/10, 1/10]) := by
    rw [minByGain]
    norm_num [Channel.gainFor, List.getD]
  rw [OptimalSellingMechanism.matching]
  rw [show ([Node.mk 0 (9/10) true, Node.mk 1 (4/5) true].length) = 1 + 1 from rfl]
  rw [OSM_matchingAux_cons, hq1]
  simp only [List.getD_cons_zero, List.eraseIdx_cons_zero]
  rw [hmin0]
  simp only [List.nil_append]
  rw [show (1 : ℕ) = 0 + 1 from rfl, OSM_matchingAux_cons, hq2]
  simp only [List.getD_cons_zero, List.eraseIdx_cons_zero]
  rw [hmin1]
  rfl

theorem gsRun_guard_false {P R : ℕ} {pPrefs rPrefs : ℕ → List ℕ} {fuel : ℕ} {s : GSState}
    (h : ¬ (P - R < s.freeCount)) : gsRun P R pPrefs rPrefs fuel s = some s := by
  unfold gsRun
  rw [if_neg h]

theorem gsPairs_init (R P : ℕ) : gsPairs R (gsInit P) = [] := by
  simp [gsPairs, gsInit]

theorem oneToOne_guard_exit (mode : String) (fuel : ℕ) (nodes : List Node)
    (channels : List Channel) (hm : mode = "node" ∨ mode = "channel")
    (hg : ¬ (numProposers mode nodes channels - numReceivers mode nodes channels <
      numProposers mode nodes channels)) :
    oneToOneIdxPairs mode fuel nodes channels = some [] := by
  rw [oneToOneIdxPairs, oneToOneRun, if_pos hm, gsRun_guard_false hg,
    Option.map_some', gsPairs_init]

theorem o2mRun_guard_false {P : ℕ} {pPrefs rPrefs : ℕ → List ℕ} {cap fuel : ℕ} {s : GSMState}
    (h : ¬ (0 < s.freeCount)) : o2mRun P pPrefs rPrefs cap fuel s = some s := by
  unfold o2mRun
  rw [if_neg h]

theorem o2mPairs_init (R P : ℕ) : o2mPairs R (o2mInit P) = [] := by
  simp [o2mPairs, o2mInit]

theorem o2mRun_succ_guard {P : ℕ} {pPrefs rPrefs : ℕ → List ℕ} {cap f : ℕ} {s : GSMState}
    (h : 0 < s.freeCount) :
    o2mRun P pPrefs rPrefs cap (f + 1) s =
      (o2mRound P pPrefs rPrefs cap s).bind (o2mRun P pPrefs rPrefs cap f) := by
  conv_lhs => unfold o2mRun
  rw [if_pos h]

theorem o2m_diverges_no_channels :
    ∀ fuel, o2mRun 1 (nodePrefIdx [Node.mk 0 1 true] []) (channelPrefIdx [Node.mk 0 1 true])
      3 fuel (o2mInit 1) = none := by
  intro fuel
  induction fuel with
  | zero =>
    unfold o2mRun
    rw [if_pos (by norm_num [o2mInit])]
  | succ f ih =>
    rw [o2mRun_succ_guard (by norm_num [o2mInit])]
    have hr : o2mRound 1 (nodePrefIdx [Node.mk 0 1 true] [])
        (channelPrefIdx [Node.mk 0 1 true]) 3 (o2mInit 1) = some (o2mInit 1) := rfl
    rw [hr, Option.some_bind]
    exact ih

/-- C2 (mixed outcome): the empty-pool cases that do terminate with an
empty assignment (random access over no channels; one-to-one matching with
no proposers or no receivers; one-to-many and the selling mechanism over
no nodes) together with the two that do NOT: one-to-many matching with a
contending node and no channels never terminates (no fuel suffices), and
the selling mechanism with an eligible node and no channels crashes on
`min()` over the empty free-channel list. -/
theorem degenerate_pools_not_all_safe :
    (∀ (nodes : List Node) (draws : DrawStream) (pos : ℕ),
       (RandomAccessProtocol.execute nodes [] draws pos).1 = 0) ∧
    (∀ (fuel : ℕ) (channels : List Channel),
       oneToOneIdxPairs "node" fuel [] channels = some []) ∧
    (∀ (fuel : ℕ) (channels : List Channel),
       oneToOneIdxPairs "channel" fuel [] channels = some []) ∧
    (∀ (fuel : ℕ) (nodes : List Node),
       oneToOneIdxPairs "node" fuel nodes [] = some []) ∧
    (∀ (fuel : ℕ) (nodes : List Node),
       oneToOneIdxPairs "channel" fuel nodes [] = some []) ∧
    (∀ (cap fuel : ℕ) (channels : List Channel),
       o2mIdxPairs cap fuel [] channels = some []) ∧
    (∀ (mode : String) (channels : List Channel),
       OptimalSellingMechanism.matching mode [] channels = some []) ∧
    (∀ fuel : ℕ, o2mIdxPairs 3 fuel [Node.mk 0 1 true] [] = none) ∧
    OptimalSellingMechanism.matching "energy" [Node.mk 0 (9/10) true] [] = none := by
  refine ⟨?_, ?_, ?_, ?_, ?_, ?_, ?_, ?_, ?_⟩
  · intro nodes draws pos
    unfold RandomAccessProtocol.execute
    suffices h : ∀ (l : List Node) (acc : ℕ × List Node × ℕ),
        (l.foldl
          (fun (acc : ℕ × List Node × ℕ) n =>
            if ([] : List Channel).isEmpty then (acc.1, acc.2.1 ++ [n], acc.2.2)
            else
              let ch := ([] : List Channel).getD
                (pickIdx (draws acc.2.2) ([] : List Channel).length) (Channel.mk 0 [])
              let r := n.send_data (ch.gainFor n.id) (draws (acc.2.2 + 1))
              (acc.1 + (if r.1 then 1 else 0), acc.2.1 ++ [r.2], acc.2.2 + 2))
          acc).1 = acc.1 by
      exact h nodes (0, [], pos)
    intro l
    induction l with
    | nil => intro acc; rfl
    | cons n ns ih =>
      intro acc
      exact ih _
  · intro fuel channels
    refine oneToOne_guard_exit _ _ _ _ (Or.inl rfl) ?_
    rw [numProposers, if_pos rfl]
    simp
  · intro fuel channels
    refine oneToOne_guard_exit _ _ _ _ (Or.inr rfl) ?_
    rw [numReceivers, if_neg (by decide)]
    simp
  · intro fuel nodes
    refine oneToOne_guard_exit _ _ _ _ (Or.inl rfl) ?_
    rw [numReceivers, if_pos rfl]
    simp
  · intro fuel nodes
    refine oneToOne_guard_exit _ _ _ _ (Or.inr rfl) ?_
    rw [numProposers, if_neg (by decide)]
    simp
  · intro cap fuel channels
    rw [o2mIdxPairs, o2mRun_guard_false (by norm_num [o2mInit]),
      Option.map_some', o2mPairs_init]
  · intro mode channels
    rfl
  · intro fuel
    rw [o2mIdxPairs]
    simp only [List.length_cons, List.length_nil, Nat.zero_add]
    rw [o2m_diverges_no_channels fuel]
    rfl
  · have hq : OptimalSellingMechanism.q "energy" [Node.mk 0 (9/10) true] [] = some 0 := by
      rw [OptimalSellingMechanism.q, List.map_cons, List.map_nil,
        osm_c_energy _ _ (by norm_num) (by norm_num)]
      norm_num [listMax, argmaxFirst]
    rw [OptimalSellingMechanism.matching,
      show ([Node.mk 0 (9/10) true].length) = 0 + 1 from rfl,
      OSM_matchingAux_cons, hq]
    rfl

/-- C5 (counterexample): the slot of `simulate_rate` is NOT
harvest-then-generate-then-send.  In the source's actual order (generate,
then harvest, then send) the message draw is consumed first and the node's
energy is drawn at stream position 2 (value 11); in the claimed order the
energy is drawn at position 1 (value 7), so the two slot functions differ
at `c5state`. -/
theorem simulate_rate_slot_order_counterexample :
    network_slot nullProtocol 1 c5state ≠
      Network.sending_slot nullProtocol
        (Network.create_messages 1 (Network.harvesting_slot c5state)) := by
  intro h
  have h2 := congrArg (fun p => ((p.2.nodes.getD 0 dNode).energy)) h
  have hL : (((network_slot nullProtocol 1 c5state).2.nodes.getD 0 dNode).energy) = 11 := by
    decide
  have hR : (((Network.sending_slot nullProtocol
      (Network.create_messages 1 (Network.harvesting_slot c5state))).2.nodes.getD 0
        dNode).energy) = 7 := by
    decide
  simp only [hL, hR] at h2
  cases h2

/-- C5 (amended): each slot of `simulate_rate` runs its phases in the
source's order — message generation first, then harvesting, then sending —
and the slot loop composes exactly these three phases per slot, adding the
protocol's per-slot success count to the running total. -/
theorem simulate_rate_slot_order_amended (proto : ProtocolFun) (rate : ℚ) (t total : ℕ)
    (st : NetworkState) :
    network_slot proto rate st =
      Network.sending_slot proto (Network.harvesting_slot (Network.create_messages rate st)) ∧
    run_slots proto rate (t + 1) st total =
      run_slots proto rate t (network_slot proto rate st).2
        (total + (network_slot proto rate st).1) :=
  ⟨rfl, rfl⟩

theorem getD_mapIdx {α β : Type} :
    ∀ (l : List α) (f : ℕ → α → β) (k : ℕ) (d : β) (d' : α), k < l.length →
      (l.mapIdx f).getD k d = f k (l.getD k d') := by
  intro l
  induction l with
  | nil =>
    intro f k d d' h
    cases h
  | cons a as ih =>
    intro f k d d' h
    rw [List.mapIdx_cons]
    cases k with
    | zero => rfl
    | succ k =>
      rw [List.getD_cons_succ, List.getD_cons_succ]
      exact ih (fun i => f (i + 1)) k d d' (Nat.lt_of_succ_lt_succ h)

/-- C6: under keep-alive, message generation only ORs new arrivals into
the flag (a set flag stays set), and `send_data` clears the flag of a node
holding a message exactly when it reports success. -/
theorem keep_alive_message_monotone :
    (∀ (rate : ℚ) (st : NetworkState) (k : ℕ), st.cfg.keepAlive = true →
      (st.nodes.getD k dNode).hasMessage = true → k < st.nodes.length →
      ((Network.create_messages rate st).nodes.getD k dNode).hasMessage = true) ∧
    (∀ (n : Node) (g draw : ℚ), n.hasMessage = true →
      ((n.send_data g draw).2.hasMessage = false ↔ (n.send_data g draw).1 = true)) := by
  constructor
  · intro rate st k hka hmsg hk
    rw [Network.create_messages]
    rw [getD_mapIdx st.nodes _ k dNode dNode hk]
    dsimp only
    rw [if_pos hka, hmsg, Bool.true_or]
  · intro n g draw hmsg
    rw [Node.send_data, if_neg (by rw [hmsg]; decide)]
    dsimp only
    cases hd : decide ((draw : ℝ) < n.probability_of_success g) with
    | false => simp
    | true => simp

/-- C7: the success probability always lies in [0,1]; with zero energy a
send deterministically fails; with energy at least `e^gain` and a pending
message a send deterministically succeeds (the uniform draw lies in
[0,1)). -/
theorem send_data_success_bounds (n : Node) (gain draw : ℚ)
    (_hg : 0 ≤ gain) (he : 0 ≤ n.energy) :
    (0 ≤ n.probability_of_success gain ∧ n.probability_of_success gain ≤ 1) ∧
    (n.energy = 0 → 0 ≤ draw → (n.send_data gain draw).1 = false) ∧
    (Real.exp (gain : ℝ) ≤ (n.energy : ℝ) → n.hasMessage = true → (draw : ℝ) < 1 →
      (n.send_data gain draw).1 = true) := by
  refine ⟨⟨?_, ?_⟩, ?_, ?_⟩
  · rw [Node.probability_of_success]
    refine le_min zero_le_one ?_
    exact mul_nonneg (by exact_mod_cast he) (le_of_lt (Real.exp_pos _))
  · rw [Node.probability_of_success]
    exact min_le_left _ _
  · intro he0 hd
    rw [Node.send_data]
    by_cases hm : n.hasMessage = false
    · rw [if_pos hm]
    · rw [if_neg hm]
      dsimp only
      apply decide_eq_false
      rw [Node.probability_of_success, he0]
      push_cast
      rw [zero_mul, min_eq_right (le_of_lt zero_lt_one)]
      exact not_lt.mpr (by exact_mod_cast hd)
  · intro hexp hmsg hd1
    rw [Node.send_data, if_neg (by rw [hmsg]; decide)]
    dsimp only
    apply decide_eq_true
    have h1 : (1 : ℝ) ≤ (n.energy : ℝ) * Real.exp (-(gain : ℚ)) := by
      have hpos : (0 : ℝ) < Real.exp (-(gain : ℝ)) := Real.exp_pos _
      have := mul_le_mul_of_nonneg_right hexp (le_of_lt hpos)
      rw [← Real.exp_add] at this
      simp only [add_neg_cancel, Real.exp_zero] at this
      exact_mod_cast this
    rw [Node.probability_of_success, min_eq_left h1]
    exact hd1

theorem keep_alive_message_monotone_witness :
    ((Network.create_messages 1
      { cfg := ⟨1, true, false, true⟩, nodes := [Node.mk 0 0 true], channels := [],
        draws := fun _ => 0, pos := 0 }).nodes.getD 0 dNode).hasMessage = true ∧
    (((Node.mk 0 2 true).send_data 0 0).2.hasMessage = false ↔
      ((Node.mk 0 2 true).send_data 0 0).1 = true) :=
  ⟨keep_alive_message_monotone.1 1
    { cfg := ⟨1, true, false, true⟩, nodes := [Node.mk 0 0 true], channels := [],
      draws := fun _ => 0, pos := 0 } 0 rfl rfl (by decide),
   keep_alive_message_monotone.2 (Node.mk 0 2 true) 0 0 rfl⟩

theorem send_data_success_bounds_witness :
    ((0 : ℚ) ≤ 0) ∧ ((0 : ℚ) ≤ (Node.mk 0 1 true).energy) ∧
    ((0 ≤ (Node.mk 0 1 true).probability_of_success 0 ∧
      (Node.mk 0 1 true).probability_of_success 0 ≤ 1) ∧
    ((Node.mk 0 1 true).energy = 0 → 0 ≤ (0 : ℚ) →
      ((Node.mk 0 1 true).send_data 0 0).1 = false) ∧
    (Real.exp ((0 : ℚ) : ℝ) ≤ ((Node.mk 0 1 true).energy : ℝ) →
      (Node.mk 0 1 true).hasMessage = true → (((0 : ℚ) : ℝ)) < 1 →
      ((Node.mk 0 1 true).send_data 0 0).1 = true)) :=
  ⟨le_refl 0, by norm_num,
   send_data_success_bounds (Node.mk 0 1 true) 0 0 (le_refl 0) (by norm_num)⟩

/-- C8 (failing evaluation): no configuration is rejected.  An unknown
value-mode string for the selling mechanism silently yields value 0,
CDF 1 and PDF 1, hence virtual value 0 for every node, and the mechanism
allocates as if the configuration were valid; a zero population size is
likewise accepted by `Network.reset` without error. -/
theorem invalid_config_not_rejected :
    OptimalSellingMechanism.c "foo" (Node.mk 0 1 true) [Channel.mk 0 [1]] = 0 ∧
    OptimalSellingMechanism.matching "foo" [Node.mk 0 1 true] [Channel.mk 0 [1]] =
      some [(Node.mk 0 1 true, Channel.mk 0 [1])] ∧
    (Network.reset ⟨0, true, false, true⟩ (fun _ => 0) 0).nodes = [] ∧
    (Network.reset ⟨0, true, false, true⟩ (fun _ => 0) 0).channels = [] := by
  have hc : OptimalSellingMechanism.c "foo" (Node.mk 0 1 true) [Channel.mk 0 [1]] = 0 := by
    rw [OptimalSellingMechanism.c, OptimalSellingMechanism.value,
      if_neg (by decide), if_neg (by decide),
      OptimalSellingMechanism.cdf, if_neg (by decide), if_neg (by decide),
      OptimalSellingMechanism.pdf, if_neg (by decide), if_neg (by decide)]
    norm_num
  refine ⟨hc, ?_, rfl, rfl⟩
  have hq : OptimalSellingMechanism.q "foo" [Node.mk 0 1 true] [Channel.mk 0 [1]] =
      some 0 := by
    rw [OptimalSellingMechanism.q, List.map_cons, List.map_nil, hc]
    norm_num [listMax, argmaxFirst]
  rw [OptimalSellingMechanism.matching,
    show ([Node.mk 0 1 true].length) = 0 + 1 from rfl, OSM_matchingAux_cons, hq]
  rfl

/-- C9 (counterexample): the per-rate thread network of
`MultiThreadedNetwork.simulate` does NOT carry the parent's configuration:
a parent with match-before enabled and keep-alive disabled gets thread
networks with the constructor defaults instead. -/
theorem multithreaded_config_counterexample :
    mkThreadNetworkConfig ⟨3, true, true, false⟩ ≠ ⟨3, true, true, false⟩ := by
  decide

/-- C9 (amended): each rate of the parallel sweep runs `simulate_rate`
against its own freshly-constructed network, but that network keeps only
the parent's population size — the per-user/match-before/keep-alive flags
revert to the constructor defaults, so the thread configuration coincides
with the parent's exactly when the parent uses default flags. -/
theorem multithreaded_fresh_network_amended (cfg : NetworkConfig) :
    (mkThreadNetworkConfig cfg).numNodes = cfg.numNodes ∧
    (mkThreadNetworkConfig cfg).perUser = true ∧
    (mkThreadNetworkConfig cfg).matchBefore = false ∧
    (mkThreadNetworkConfig cfg).keepAlive = true ∧
    (cfg.perUser = true → cfg.matchBefore = false → cfg.keepAlive = true →
      mkThreadNetworkConfig cfg = cfg) ∧
    (∀ (proto : ProtocolFun) (rates : List ℚ) (trial : ℕ) (streams : ℚ → DrawStream),
      MultiThreadedNetwork.simulate proto rates trial cfg streams =
        rates.map fun rate =>
          (Network.simulate_rate proto rate trial (mkThreadNetworkConfig cfg)
            (streams rate) 0).1) := by
  refine ⟨rfl, rfl, rfl, rfl, ?_, fun _ _ _ _ => rfl⟩
  intro h1 h2 h3
  cases cfg with
  | mk n pu mb ka =>
    dsimp only at h1 h2 h3
    subst h1; subst h2; subst h3
    rfl

theorem multithreaded_fresh_network_amended_witness :
    mkThreadNetworkConfig ⟨2, true, false, true⟩ = (⟨2, true, false, true⟩ : NetworkConfig) :=
  (multithreaded_fresh_network_amended ⟨2, true, false, true⟩).2.2.2.2.1 rfl rfl rfl

/-- C10: after construction (whose `__init__` body stores the flags and
calls `reset`) and after every `reset`, the number of channels equals the
number of nodes and both equal `num_nodes`; the configuration offers no
separate channel count. -/
theorem reset_channels_eq_nodes (cfg : NetworkConfig) (draws : DrawStream) (pos : ℕ) :
    (Network.reset cfg draws pos).nodes.length = cfg.numNodes ∧
    (Network.reset cfg draws pos).channels.length = cfg.numNodes := by
  constructor
  · simp [Network.reset]
  · rw [Network.reset]
    dsimp only
    suffices h : ∀ (l : List ℕ) (acc : List Channel) (p : ℕ),
        ((l.foldl (fun (acc : List Channel × ℕ) i =>
          let g := generate_gains cfg.perUser cfg.numNodes draws acc.2
          (acc.1 ++ [Channel.mk i g.1], g.2)) (acc, p)).1).length = acc.length + l.length by
      simpa using h (List.range cfg.numNodes) [] pos
    intro l
    induction l with
    | nil => intro acc p; simp
    | cons a as ih =>
      intro acc p
      rw [List.foldl_cons]
      dsimp only
      rw [ih]
      simp only [List.length_append, List.length_singleton, List.length_cons,
        List.length_nil]
      omega
